import Mathlib

/-!
Verification of the kyaml pipeline core and its containerized-function filter.

The development shallowly embeds:
* `kyaml/kio/kio.go` — the `Pipeline` type and its `Execute` method, together
  with `ResourceNodeSlice.Read`;
* the `filters` package's container filter: its container-name resolver, its
  Resource-List codec (index stamping, envelope build, envelope decode) and its
  sandboxed-invocation argument construction.

Documents are modelled as records carrying a type tag (`apiVersion`, `kind`),
an opaque body, and an ordered string-to-string annotation map.  Errors are
modelled as strings.  Effects of a pipeline run (which filters and writers were
invoked, and with what collections) are made observable by returning traces.
-/

/-- A configuration document: type tag, opaque remaining content, and an
ordered annotation map (`metadata.annotations`). -/
structure Doc where
  apiVersion : String
  kind : String
  content : String
  annotations : List (String × String)
deriving DecidableEq, Repr

instance : Inhabited Doc := ⟨⟨"", "", "", []⟩⟩

/-- Look a key up in an ordered annotation map (first match wins). -/
def lookupAnn : List (String × String) → String → Option String
  | [], _ => none
  | p :: rest, k => if p.1 = k then some p.2 else lookupAnn rest k

/-- Set a key in an ordered annotation map: overwrite in place when present,
append when absent. -/
def setAnn : List (String × String) → String → String → List (String × String)
  | [], k, v => [(k, v)]
  | p :: rest, k, v => if p.1 = k then (k, v) :: rest else p :: setAnn rest k v

theorem lookupAnn_setAnn_same (m : List (String × String)) (k v : String) :
    lookupAnn (setAnn m k v) k = some v := by
  induction m with
  | nil => simp [setAnn, lookupAnn]
  | cons p rest ih =>
    by_cases h : p.1 = k <;> simp [setAnn, lookupAnn, h, ih]

theorem lookupAnn_setAnn_other (m : List (String × String)) (k v k' : String)
    (h : k' ≠ k) : lookupAnn (setAnn m k v) k' = lookupAnn m k' := by
  induction m with
  | nil => simp [setAnn, lookupAnn, Ne.symm h]
  | cons p rest ih =>
    by_cases hp : p.1 = k
    · simp [setAnn, lookupAnn, hp, Ne.symm h]
    · by_cases hp' : p.1 = k' <;> simp [setAnn, lookupAnn, hp, hp', ih, h]

/-! ### Decimal rendering of the index annotation value

The index annotation records a zero-based position as a base-10 string.  The
encoder below is structural (fuel-driven) so that concrete instances reduce in
the kernel, and it comes with a little-endian decoder used to prove that
distinct positions always render to distinct strings. -/

/-- One decimal digit as a character. -/
def decChar : Nat → Char
  | 0 => '0' | 1 => '1' | 2 => '2' | 3 => '3' | 4 => '4'
  | 5 => '5' | 6 => '6' | 7 => '7' | 8 => '8' | _ => '9'

/-- Little-endian base-10 digits of `n`, driven by a fuel argument; correct
whenever `n ≤ fuel`. -/
def decDigits : Nat → Nat → List Nat
  | _, 0 => []
  | 0, _ + 1 => []
  | fuel + 1, n + 1 => (n + 1) % 10 :: decDigits fuel ((n + 1) / 10)

/-- Value of a little-endian base-10 digit list. -/
def decVal : List Nat → Nat
  | [] => 0
  | d :: ds => d + 10 * decVal ds

theorem decVal_decDigits : ∀ fuel n, n ≤ fuel → decVal (decDigits fuel n) = n := by
  intro fuel
  induction fuel with
  | zero => intro n hn; interval_cases n; simp [decDigits, decVal]
  | succ f ih =>
    intro n hn
    match n with
    | 0 => simp [decDigits, decVal]
    | m + 1 =>
      have hdiv : (m + 1) / 10 ≤ f := by
        have h1 : (m + 1) / 10 < m + 1 := Nat.div_lt_self (Nat.succ_pos m) (by omega)
        omega
      simp only [decDigits, decVal, ih _ hdiv]
      omega

theorem decDigits_lt_ten : ∀ fuel n, ∀ d ∈ decDigits fuel n, d < 10 := by
  intro fuel
  induction fuel with
  | zero => intro n d hd; match n with
    | 0 => simp [decDigits] at hd
    | _ + 1 => simp [decDigits] at hd
  | succ f ih =>
    intro n d hd
    match n with
    | 0 => simp [decDigits] at hd
    | m + 1 =>
      simp only [decDigits, List.mem_cons] at hd
      rcases hd with h | h
      · omega
      · exact ih _ _ h

/-- Render a natural number in base 10. -/
def natToDecStr (n : Nat) : String :=
  match n with
  | 0 => "0"
  | _ + 1 => List.asString (((decDigits n n).map decChar).reverse)

theorem decChar_inj_lt (d e : Nat) (hd : d < 10) (he : e < 10)
    (h : decChar d = decChar e) : d = e := by
  interval_cases d <;> interval_cases e <;> simp_all [decChar]

theorem map_decChar_inj : ∀ l₁ l₂ : List Nat, (∀ d ∈ l₁, d < 10) → (∀ d ∈ l₂, d < 10) →
    l₁.map decChar = l₂.map decChar → l₁ = l₂ := by
  intro l₁
  induction l₁ with
  | nil => intro l₂ _ _ h; cases l₂ <;> simp_all
  | cons a l ih =>
    intro l₂ h₁ h₂ h
    cases l₂ with
    | nil => simp at h
    | cons b l' =>
      simp only [List.map_cons, List.cons.injEq] at h
      have hab : a = b :=
        decChar_inj_lt a b (h₁ a (by simp)) (h₂ b (by simp)) h.1
      have : l = l' := ih l' (fun d hd => h₁ d (by simp [hd]))
        (fun d hd => h₂ d (by simp [hd])) h.2
      simp [hab, this]

theorem natToDecStr_succ_ne_zero (m : Nat) : natToDecStr (m + 1) ≠ "0" := by
  intro h
  have hdata : (natToDecStr (m + 1)).data = ("0" : String).data := by rw [h]
  have hd0 : ("0" : String).data = ['0'] := rfl
  simp only [natToDecStr, List.asString, hd0] at hdata
  have hrev : (decDigits (m + 1) (m + 1)).map decChar = ['0'] := by
    have := congrArg List.reverse hdata
    simpa using this
  have hval : decVal (decDigits (m + 1) (m + 1)) = m + 1 :=
    decVal_decDigits (m + 1) (m + 1) le_rfl
  cases hdd : decDigits (m + 1) (m + 1) with
  | nil => rw [hdd] at hrev; simp at hrev
  | cons x xs =>
    rw [hdd] at hrev hval
    simp only [List.map_cons, List.cons.injEq] at hrev
    have hxs : xs = [] := List.map_eq_nil_iff.mp hrev.2
    have hx : x = 0 := by
      apply decChar_inj_lt x 0 (decDigits_lt_ten (m + 1) (m + 1) x (by rw [hdd]; simp))
        (by omega)
      rw [hrev.1]; rfl
    rw [hx, hxs] at hval
    simp [decVal] at hval

theorem natToDecStr_inj (a b : Nat) (h : natToDecStr a = natToDecStr b) : a = b := by
  match a, b with
  | 0, 0 => rfl
  | 0, m + 1 => exact absurd h.symm (natToDecStr_succ_ne_zero m)
  | m + 1, 0 => exact absurd h (natToDecStr_succ_ne_zero m)
  | m + 1, k + 1 =>
    have hdata : (natToDecStr (m + 1)).data = (natToDecStr (k + 1)).data := by rw [h]
    simp only [natToDecStr, List.asString] at hdata
    have hmaps : (decDigits (m + 1) (m + 1)).map decChar
        = (decDigits (k + 1) (k + 1)).map decChar :=
      List.reverse_injective hdata
    have hdig := map_decChar_inj _ _
      (decDigits_lt_ten (m + 1) (m + 1)) (decDigits_lt_ten (k + 1) (k + 1)) hmaps
    have h₁ : decVal (decDigits (m + 1) (m + 1)) = m + 1 :=
      decVal_decDigits (m + 1) (m + 1) le_rfl
    have h₂ : decVal (decDigits (k + 1) (k + 1)) = k + 1 :=
      decVal_decDigits (k + 1) (k + 1) le_rfl
    rw [hdig, h₂] at h₁
    exact h₁.symm

/-! ### Container-reference resolver, Resource-List codec and invocation build

The implementation file of the `filters` package is not part of the sources
(only its tests are), so the definitions below are modelled from the spec and
cross-checked against the expectations recorded in the tests. -/

/-- The explicit container-override annotation key. -/
def containerAnnKey : String := "kyaml.kustomize.dev/container"

/-- The index annotation key stamped by the Resource-List encoder. -/
def kioIndexKey : String := "kyaml.kustomize.dev/kio/index"

/-- Characters of a string before the first slash (the API-group position of
an `apiVersion` value). -/
def beforeFirstSlash : List Char → List Char
  | [] => []
  | c :: cs => if c = '/' then [] else c :: beforeFirstSlash cs

/-- Modelled from the spec: `GetContainerName` (§4.1 Container-Reference
Resolver), whose implementation file is missing from the sources.  In priority
order: (1) if the document carries the container-override annotation, return
its value verbatim; (2) otherwise split the document's `apiVersion` on the
first `/` and, when the portion before it contains a `.`, return the whole
`apiVersion` unchanged, tag included; (3) otherwise return the empty string. -/
def GetContainerName (d : Doc) : String :=
  match lookupAnn d.annotations containerAnnKey with
  | some v => v
  | none =>
    if (beforeFirstSlash d.apiVersion.data).any (fun c => c = '.') then
      d.apiVersion
    else ""

/-- Overwrite (or add) a document's index annotation with position `i`. -/
def setIndexAnn (d : Doc) (i : Nat) : Doc :=
  ⟨d.apiVersion, d.kind, d.content, setAnn d.annotations kioIndexKey (natToDecStr i)⟩

/-- Stamp index annotations on a collection, positions starting at `k`. -/
def stampFrom (k : Nat) : List Doc → List Doc
  | [] => []
  | d :: ds => setIndexAnn d k :: stampFrom (k + 1) ds

/-- Modelled from the spec: the encoder's first step (§4.2) — stamp the Index
Annotation on every item, recording its zero-based position in the collection
(in the implementation this mutates the annotation maps in place). -/
def stampIndices (c : List Doc) : List Doc := stampFrom 0 c

/-- The envelope document (Resource List) bundling the items with the
side-channel function-config document. -/
structure ResourceList where
  apiVersion : String
  kind : String
  items : List Doc
  functionConfig : Option Doc
deriving DecidableEq, Repr

/-- Modelled from the spec: Resource-List Encode (§4.2, §6) — stamp the index
annotations, then wrap the collection, order preserved, together with the
function-config document into a fresh envelope of the fixed envelope type.
The external serializer is format-preserving (§6), so text transport is
modelled as the identity on the envelope value. -/
def encodeResourceList (c : List Doc) (fc : Option Doc) : ResourceList :=
  ⟨"kyaml.kustomize.dev/v1alpha1", "ResourceList", stampIndices c, fc⟩

/-- Modelled from the spec: Resource-List Decode (§4.2) — fail with a format
error when the top-level type tag is not the envelope kind, otherwise return
the `items` sequence in order, index annotations untouched. -/
def decodeResourceList (e : ResourceList) : Except String (List Doc) :=
  if e.kind = "ResourceList" then Except.ok e.items else Except.error "wrong kind"

/-- A container filter stage: target image, function-config document, and an
optional override of the invocation arguments. -/
structure ContainerFilter where
  Image : String
  Config : Option Doc
  args : List String

/-- A built subprocess invocation: runtime binary, its argument list, and the
environment handed to the subprocess. -/
structure ExecCmd where
  Path : String
  Args : List String
  Env : List (String × String)

/-- Modelled from the spec: `ContainerFilter.getCommand` (§4.3, §6) — the
fixed security profile (remove on exit, interactive with all three standard
streams attached, no network, unprivileged user, no privilege escalation),
then one `-e NAME` pair per host environment variable in enumeration order,
then the image reference, then any explicit override arguments; every host
variable's name and value is forwarded into the subprocess environment. -/
def ContainerFilter.getCommand (f : ContainerFilter)
    (hostEnv : List (String × String)) : ExecCmd :=
  ⟨"docker",
    ["run", "--rm", "-i", "-a", "STDIN", "-a", "STDOUT", "-a", "STDERR",
     "--network", "none", "--user", "nobody", "--security-opt=no-new-privileges"]
      ++ (hostEnv.map (fun p => ["-e", p.1])).flatten
      ++ [f.Image] ++ f.args,
    hostEnv⟩

/-! ### The kio pipeline (`kyaml/kio/kio.go`)

`Reader.Read` returns a node list and an error; a reader is embedded as the
pair of values its `Read` call produces.  Filters and writers are embedded as
the functions their `Filter`/`Write` methods compute.  `Execute` additionally
returns a trace: how many reads were performed, and the collections each
invoked filter and writer received, so that "is never invoked" is a provable
statement. -/

/-- A collection of resource nodes, usable as a `Reader`. -/
abbrev ResourceNodeSlice := List Doc

/-- `func (o ResourceNodeSlice) Read() ([]*yaml.RNode, error) \x7b return o, nil \x7d`. -/
def ResourceNodeSlice.Read (o : ResourceNodeSlice) : List Doc × Option String :=
  (o, none)

/-- A pipeline: input sources (each embedded as its `Read` result), filter
stages, and output sinks. -/
structure Pipeline where
  Inputs : List (List Doc × Option String)
  Filters : List (List Doc → List Doc × Option String)
  Outputs : List (List Doc → Option String)

/-- Read loop of `Execute`: append each input's nodes in source order,
stopping at the first read error.  Also counts the `Read` calls performed. -/
def readPhase : List (List Doc × Option String) → List Doc → Nat × Except String (List Doc)
  | [], acc => (0, Except.ok acc)
  | r :: rs, acc =>
    match r.2 with
    | some e => (1, Except.error e)
    | none =>
      let rest := readPhase rs (acc ++ r.1)
      (rest.1 + 1, rest.2)

/-- Outcome of the filter loop: the final collection, or an early return
carrying the failing call's error (`none` when the stage emptied the
collection without error). -/
inductive FilterOut where
  | ok (coll : List Doc)
  | stop (e : Option String)
deriving DecidableEq

/-- Filter loop of `Execute`: thread the collection through the stages in
order; after each call, return its error as soon as the result is empty or
the error is non-nil.  Also traces the collection each invoked stage got. -/
def filterPhase : List (List Doc → List Doc × Option String) → List Doc →
    List (List Doc) × FilterOut
  | [], coll => ([], FilterOut.ok coll)
  | f :: fs, coll =>
    let r := f coll
    if r.1.isEmpty || r.2.isSome then ([coll], FilterOut.stop r.2)
    else
      let rest := filterPhase fs r.1
      (coll :: rest.1, rest.2)

/-- Write loop of `Execute`: hand the final collection to each sink in
declaration order, stopping at the first write error.  Also traces the
collection each invoked sink got. -/
def writePhase : List (List Doc → Option String) → List Doc →
    List (List Doc) × Option String
  | [], _ => ([], none)
  | w :: ws, coll =>
    match w coll with
    | some e => ([coll], some e)
    | none =>
      let rest := writePhase ws coll
      (coll :: rest.1, rest.2)

/-- Observable outcome of one `Execute` run: the returned error, the number of
`Read` calls, and the collections each invoked filter and writer received. -/
structure ExecResult where
  error : Option String
  readCalls : Nat
  filterInputs : List (List Doc)
  writeInputs : List (List Doc)
deriving DecidableEq

/-- `func (p Pipeline) Execute() error`: read all inputs into one collection;
return nil immediately when it is empty; thread it through the filters,
returning the failing call's error as soon as a result is empty or an error is
non-nil; finally hand the result to each output, returning the first write
error. -/
def Pipeline.Execute (p : Pipeline) : ExecResult :=
  match readPhase p.Inputs [] with
  | (n, Except.error e) => ⟨some e, n, [], []⟩
  | (n, Except.ok result) =>
    if result.isEmpty then ⟨none, n, [], []⟩
    else
      match filterPhase p.Filters result with
      | (tr, FilterOut.stop e) => ⟨e, n, tr, []⟩
      | (tr, FilterOut.ok final) =>
        let w := writePhase p.Outputs final
        ⟨w.2, n, tr, w.1⟩

/-! ### Phase lemmas -/

theorem readPhase_all_ok : ∀ (rs : List (List Doc × Option String)) (acc : List Doc),
    (∀ r ∈ rs, r.2 = none) →
    readPhase rs acc = (rs.length, Except.ok (acc ++ (rs.map Prod.fst).flatten)) := by
  intro rs
  induction rs with
  | nil => intro acc _; simp [readPhase]
  | cons r rest ih =>
    intro acc h
    have hr : r.2 = none := h r (by simp)
    simp only [readPhase, hr, ih (acc ++ r.1) (fun x hx => h x (by simp [hx]))]
    simp [List.append_assoc]

theorem readPhase_first_error : ∀ (is₁ : List (List Doc × Option String))
    (nodes : List Doc) (e : String) (is₂ : List (List Doc × Option String))
    (acc : List Doc), (∀ r ∈ is₁, r.2 = none) →
    readPhase (is₁ ++ (nodes, some e) :: is₂) acc = (is₁.length + 1, Except.error e) := by
  intro is₁
  induction is₁ with
  | nil => intro nodes e is₂ acc _; simp [readPhase]
  | cons r rest ih =>
    intro nodes e is₂ acc h
    have hr : r.2 = none := h r (by simp)
    have hih := ih nodes e is₂ (acc ++ r.1) (fun x hx => h x (by simp [hx]))
    simp [readPhase, hr, hih, Nat.add_comm]

theorem filterPhase_append_ok : ∀ (fs₁ fs₂ : List (List Doc → List Doc × Option String))
    (coll : List Doc) (tr : List (List Doc)) (c' : List Doc),
    filterPhase fs₁ coll = (tr, FilterOut.ok c') →
    filterPhase (fs₁ ++ fs₂) coll
      = (tr ++ (filterPhase fs₂ c').1, (filterPhase fs₂ c').2) := by
  intro fs₁
  induction fs₁ with
  | nil =>
    intro fs₂ coll tr c' h
    simp only [filterPhase] at h
    cases h
    simp
  | cons f rest ih =>
    intro fs₂ coll tr c' h
    simp only [List.cons_append, filterPhase] at h ⊢
    by_cases hc : ((f coll).1.isEmpty || (f coll).2.isSome) = true
    · rw [if_pos hc] at h
      simp at h
    · rw [if_neg hc] at h
      rw [if_neg hc]
      rcases hfp : filterPhase rest (f coll).1 with ⟨a, b⟩
      rw [hfp] at h
      have ha : coll :: a = tr := congrArg Prod.fst h
      have hb : b = FilterOut.ok c' := congrArg Prod.snd h
      subst hb
      have hih := ih fs₂ (f coll).1 a c' hfp
      simp only [List.append_eq] at hih ⊢
      rw [hih, ← ha]
      simp

/-- Decides that no stage of a filter chain errors or empties the collection
when threaded from `coll`. -/
def noStop : List (List Doc → List Doc × Option String) → List Doc → Bool
  | [], _ => true
  | f :: fs, coll => !(f coll).1.isEmpty && (f coll).2.isNone && noStop fs (f coll).1

/-- The collections a filter chain threaded from `coll` hands to its stages:
stage `i` receives the result of stage `i - 1`, the first receives `coll`. -/
def chainTrace : List (List Doc → List Doc × Option String) → List Doc → List (List Doc)
  | [], _ => []
  | f :: fs, coll => coll :: chainTrace fs (f coll).1

/-- The collection a filter chain threaded from `coll` produces last. -/
def chainResult : List (List Doc → List Doc × Option String) → List Doc → List Doc
  | [], coll => coll
  | f :: fs, coll => chainResult fs (f coll).1

theorem filterPhase_of_noStop : ∀ (fs : List (List Doc → List Doc × Option String))
    (coll : List Doc), noStop fs coll = true →
    filterPhase fs coll = (chainTrace fs coll, FilterOut.ok (chainResult fs coll)) := by
  intro fs
  induction fs with
  | nil => intro coll _; simp [filterPhase, chainTrace, chainResult]
  | cons f rest ih =>
    intro coll h
    simp only [noStop, Bool.and_eq_true, Bool.not_eq_true'] at h
    obtain ⟨⟨h1, h2⟩, h3⟩ := h
    have h2' : (f coll).2 = none := Option.isNone_iff_eq_none.mp h2
    simp [filterPhase, chainTrace, chainResult, h1, h2', ih (f coll).1 h3]

theorem writePhase_all_ok : ∀ (ws : List (List Doc → Option String)) (coll : List Doc),
    (∀ w ∈ ws, w coll = none) →
    writePhase ws coll = (List.replicate ws.length coll, none) := by
  intro ws
  induction ws with
  | nil => intro coll _; simp [writePhase]
  | cons w rest ih =>
    intro coll h
    simp only [writePhase, h w (by simp), ih coll (fun x hx => h x (by simp [hx]))]
    simp [List.replicate_succ]

theorem writePhase_first_error : ∀ (ws₁ : List (List Doc → Option String))
    (w : List Doc → Option String) (ws₂ : List (List Doc → Option String))
    (coll : List Doc) (err : String), (∀ x ∈ ws₁, x coll = none) → w coll = some err →
    writePhase (ws₁ ++ w :: ws₂) coll
      = (List.replicate (ws₁.length + 1) coll, some err) := by
  intro ws₁
  induction ws₁ with
  | nil => intro w ws₂ coll err _ hw; simp [writePhase, hw]
  | cons x rest ih =>
    intro w ws₂ coll err h hw
    have hih := ih w ws₂ coll err (fun y hy => h y (by simp [hy])) hw
    simp [writePhase, h x (by simp), hih, List.replicate_succ]

theorem writePhase_inputs_eq : ∀ (ws : List (List Doc → Option String))
    (coll : List Doc), ∀ c ∈ (writePhase ws coll).1, c = coll := by
  intro ws
  induction ws with
  | nil => intro coll c hc; simp [writePhase] at hc
  | cons w rest ih =>
    intro coll c hc
    simp only [writePhase] at hc
    cases hw : w coll with
    | some e => rw [hw] at hc; simp at hc; exact hc
    | none =>
      rw [hw] at hc
      simp only [List.mem_cons] at hc
      rcases hc with h | h
      · exact h
      · exact ih coll c h

/-! ### Stamping lemmas -/

theorem stampFrom_length : ∀ (c : List Doc) (k : Nat), (stampFrom k c).length = c.length := by
  intro c
  induction c with
  | nil => intro k; simp [stampFrom]
  | cons d ds ih => intro k; simp [stampFrom, ih]

theorem stampFrom_map_lookup : ∀ (c : List Doc) (k : Nat),
    (stampFrom k c).map (fun d => lookupAnn d.annotations kioIndexKey)
      = (List.range' k c.length).map (fun i => some (natToDecStr i)) := by
  intro c
  induction c with
  | nil => intro k; simp [stampFrom]
  | cons d ds ih =>
    intro k
    simp only [stampFrom, List.map_cons, List.length_cons, List.range'_succ, setIndexAnn,
      lookupAnn_setAnn_same, ih (k + 1)]

theorem stampFrom_getD : ∀ (c : List Doc) (k i : Nat), i < c.length →
    (stampFrom k c).getD i default = setIndexAnn (c.getD i default) (k + i) := by
  intro c
  induction c with
  | nil => intro k i h; simp at h
  | cons d ds ih =>
    intro k i h
    match i with
    | 0 => simp [stampFrom]
    | j + 1 =>
      have hj : j < ds.length := by simpa using h
      simp only [stampFrom, List.getD_cons_succ, ih (k + 1) j hj]
      congr 1
      omega

/-! ### The claims -/

/-- C1: encoding a non-empty ordered document collection together with a function-config
document via the Resource-List codec and then decoding the produced envelope yields an
`items` sequence equal in order and content to the (in-place index-stamped) collection:
the length and order are preserved, each item agrees with the corresponding input document
on everything except the index annotation, and each item's index annotation equals its
zero-based position in the collection. -/
theorem c1_encode_decode_round_trip (c : List Doc) (fc : Option Doc) (hne : c ≠ []) :
    decodeResourceList (encodeResourceList c fc) = Except.ok (stampIndices c) ∧
    (stampIndices c).length = c.length ∧
    (∀ i, i < c.length →
      ((stampIndices c).getD i default).apiVersion = (c.getD i default).apiVersion ∧
      ((stampIndices c).getD i default).kind = (c.getD i default).kind ∧
      ((stampIndices c).getD i default).content = (c.getD i default).content ∧
      (∀ k, k ≠ kioIndexKey →
        lookupAnn ((stampIndices c).getD i default).annotations k
          = lookupAnn (c.getD i default).annotations k) ∧
      lookupAnn ((stampIndices c).getD i default).annotations kioIndexKey
        = some (natToDecStr i)) := by
  refine ⟨rfl, stampFrom_length c 0, ?_⟩
  intro i hi
  have hg : (stampIndices c).getD i default = setIndexAnn (c.getD i default) i := by
    have := stampFrom_getD c 0 i hi
    simpa [stampIndices] using this
  rw [hg]
  refine ⟨rfl, rfl, rfl, ?_, lookupAnn_setAnn_same _ _ _⟩
  intro k hk
  exact lookupAnn_setAnn_other _ _ _ _ hk

/-- C1 witness: the two-document collection of the tests, with the test's
function-config document. -/
theorem c1_encode_decode_round_trip_witness :
    decodeResourceList
        (encodeResourceList
          [⟨"apps/v1", "Deployment", "deployment-foo", []⟩,
           ⟨"v1", "Service", "service-foo", []⟩]
          (some ⟨"apps/v1", "Deployment", "foo", []⟩))
      = Except.ok
          [⟨"apps/v1", "Deployment", "deployment-foo", [(kioIndexKey, "0")]⟩,
           ⟨"v1", "Service", "service-foo", [(kioIndexKey, "1")]⟩] ∧
    ([⟨"apps/v1", "Deployment", "deployment-foo", []⟩,
      ⟨"v1", "Service", "service-foo", []⟩] : List Doc) ≠ [] := by
  constructor
  · have h := (c1_encode_decode_round_trip
      [⟨"apps/v1", "Deployment", "deployment-foo", []⟩,
       ⟨"v1", "Service", "service-foo", []⟩]
      (some ⟨"apps/v1", "Deployment", "foo", []⟩) (by decide)).1
    rw [h]
    rfl
  · decide

/-- C2: every item of an encoded envelope carries the index annotation whose value is the
item's zero-based position in the collection handed to the encoder; within one envelope
those values are pairwise distinct and form the dense range `0 .. n-1`, where `n` is the
collection's length at encode time. -/
theorem c2_index_values_dense (c : List Doc) (fc : Option Doc) :
    (encodeResourceList c fc).items.length = c.length ∧
    (encodeResourceList c fc).items.map (fun d => lookupAnn d.annotations kioIndexKey)
      = (List.range c.length).map (fun i => some (natToDecStr i)) ∧
    ((encodeResourceList c fc).items.map
      (fun d => lookupAnn d.annotations kioIndexKey)).Nodup := by
  have hmap : (encodeResourceList c fc).items.map
      (fun d => lookupAnn d.annotations kioIndexKey)
      = (List.range c.length).map (fun i => some (natToDecStr i)) := by
    have := stampFrom_map_lookup c 0
    simpa [encodeResourceList, stampIndices, List.range_eq_range'] using this
  refine ⟨stampFrom_length c 0, hmap, ?_⟩
  rw [hmap]
  apply List.Nodup.map
  · intro a b hab
    exact natToDecStr_inj a b (Option.some.inj hab)
  · exact List.nodup_range c.length

/-- C3: the container-reference resolver is a total pure function of the document.  When
the container-override annotation is present its value is returned verbatim, regardless of
the shape of `apiVersion`; otherwise, when the portion of `apiVersion` before the first
slash contains a dot, the whole `apiVersion` is returned unchanged, tag included;
otherwise the empty string is returned. -/
theorem c3_getContainerName_resolve (d : Doc) :
    (∀ v, lookupAnn d.annotations containerAnnKey = some v → GetContainerName d = v) ∧
    (lookupAnn d.annotations containerAnnKey = none →
      ((beforeFirstSlash d.apiVersion.data).any (fun c => c = '.') = true →
        GetContainerName d = d.apiVersion) ∧
      ((beforeFirstSlash d.apiVersion.data).any (fun c => c = '.') = false →
        GetContainerName d = "")) := by
  refine ⟨?_, ?_⟩
  · intro v hv
    simp [GetContainerName, hv]
  · intro hnone
    refine ⟨?_, ?_⟩
    · intro hdot
      simp [GetContainerName, hnone, hdot]
    · intro hdot
      simp [GetContainerName, hnone, hdot]

/-- C3 witness: the five resolver cases exercised by the tests. -/
theorem c3_getContainerName_resolve_witness :
    GetContainerName ⟨"gcr.io/foo/bar:something", "MyThing", "", []⟩
      = "gcr.io/foo/bar:something" ∧
    GetContainerName ⟨"us.gcr.io/foo/bar:something", "MyThing", "", []⟩
      = "us.gcr.io/foo/bar:something" ∧
    GetContainerName ⟨"docker.io/foo/bar:something", "MyThing", "", []⟩
      = "docker.io/foo/bar:something" ∧
    GetContainerName ⟨"v1", "MyThing", "",
        [("kyaml.kustomize.dev/container", "gcr.io/foo/bar:something")]⟩
      = "gcr.io/foo/bar:something" ∧
    GetContainerName ⟨"v1", "MyThing", "", []⟩ = "" ∧
    GetContainerName ⟨"apps/v1", "Deployment", "", []⟩ = "" := by
  refine ⟨?_, ?_, ?_, ?_, ?_, ?_⟩
  · exact ((c3_getContainerName_resolve _).2 (by decide)).1 (by decide)
  · exact ((c3_getContainerName_resolve _).2 (by decide)).1 (by decide)
  · exact ((c3_getContainerName_resolve _).2 (by decide)).1 (by decide)
  · exact (c3_getContainerName_resolve _).1 _ (by decide)
  · exact ((c3_getContainerName_resolve _).2 (by decide)).2 (by decide)
  · exact ((c3_getContainerName_resolve _).2 (by decide)).2 (by decide)

/-- C4: for image reference `example.com:version` with no override arguments, the built
invocation's argument list is exactly the fixed security profile `run --rm -i -a STDIN -a
STDOUT -a STDERR --network none --user nobody --security-opt=no-new-privileges`, one
`-e NAME` pair per host environment variable in enumeration order, then the image
reference; and every host variable's name and value appears in the subprocess
environment. -/
theorem c4_getCommand_args (hostEnv : List (String × String)) :
    (ContainerFilter.getCommand ⟨"example.com:version", none, []⟩ hostEnv).Args
      = ["run", "--rm", "-i", "-a", "STDIN", "-a", "STDOUT", "-a", "STDERR",
         "--network", "none", "--user", "nobody", "--security-opt=no-new-privileges"]
        ++ (hostEnv.map (fun p => ["-e", p.1])).flatten ++ ["example.com:version"] ∧
    ∀ p ∈ hostEnv,
      p ∈ (ContainerFilter.getCommand ⟨"example.com:version", none, []⟩ hostEnv).Env := by
  refine ⟨?_, ?_⟩
  · simp [ContainerFilter.getCommand]
  · intro p hp
    simpa [ContainerFilter.getCommand] using hp

/-- C4 witness: the host environment of the test, containing `KYAML_TEST=FOO`. -/
theorem c4_getCommand_args_witness :
    (ContainerFilter.getCommand ⟨"example.com:version", none, []⟩
        [("KYAML_TEST", "FOO")]).Args
      = ["run", "--rm", "-i", "-a", "STDIN", "-a", "STDOUT", "-a", "STDERR",
         "--network", "none", "--user", "nobody", "--security-opt=no-new-privileges",
         "-e", "KYAML_TEST", "example.com:version"] ∧
    ("KYAML_TEST", "FOO") ∈ (ContainerFilter.getCommand ⟨"example.com:version", none, []⟩
        [("KYAML_TEST", "FOO")]).Env := by
  refine ⟨?_, ?_⟩
  · have h := (c4_getCommand_args [("KYAML_TEST", "FOO")]).1
    simpa using h
  · exact (c4_getCommand_args [("KYAML_TEST", "FOO")]).2 _ (by decide)

/-- C5: if a filter stage's call returns an error or an empty collection, `Execute` stops
immediately and returns exactly that call's error — which is nil when the stage emptied
the collection without error — and no later filter and no writer is invoked. -/
theorem c5_execute_filter_stop (p : Pipeline) (n : Nat) (result coll res : List Doc)
    (fs₁ fs₂ : List (List Doc → List Doc × Option String))
    (f : List Doc → List Doc × Option String) (tr : List (List Doc)) (e : Option String)
    (hread : readPhase p.Inputs [] = (n, Except.ok result)) (hne : result ≠ [])
    (hfs : p.Filters = fs₁ ++ f :: fs₂)
    (hpre : filterPhase fs₁ result = (tr, FilterOut.ok coll))
    (hf : f coll = (res, e)) (hstop : res = [] ∨ e ≠ none) :
    p.Execute = ⟨e, n, tr ++ [coll], []⟩ := by
  have hstop' : ((f coll).1.isEmpty || (f coll).2.isSome) = true := by
    rcases hstop with h | h
    · simp [hf, h]
    · simp [hf, Option.isSome_iff_ne_none, h]
  have hfc : filterPhase (f :: fs₂) coll = ([coll], FilterOut.stop e) := by
    simp only [filterPhase, hstop', if_true]
    simp [hf]
  have happ := filterPhase_append_ok fs₁ (f :: fs₂) result tr coll hpre
  rw [hfc] at happ
  have hres : result.isEmpty = false := by
    cases result with
    | nil => exact absurd rfl hne
    | cons x xs => rfl
  simp only [Pipeline.Execute, hread, hres, hfs, happ]
  simp

/-- C6: when the read phase yields an empty collection, `Execute` returns nil and invokes
no filter and no writer. -/
theorem c6_execute_empty_input (p : Pipeline) (n : Nat)
    (hread : readPhase p.Inputs [] = (n, Except.ok [])) :
    p.Execute = ⟨none, n, [], []⟩ := by
  simp [Pipeline.Execute, hread]

/-- C7: in the write phase the sinks are invoked in declaration order, each with the same
final collection; when all succeed the run returns nil, and otherwise the first failing
writer's error is returned, the remaining writes are aborted, and the writers that ran
before the failing one have already taken effect. -/
theorem c7_execute_write_phase (p : Pipeline) (n : Nat) (result final : List Doc)
    (tr : List (List Doc))
    (hread : readPhase p.Inputs [] = (n, Except.ok result)) (hne : result ≠ [])
    (hfil : filterPhase p.Filters result = (tr, FilterOut.ok final)) :
    ((∀ w ∈ p.Outputs, w final = none) →
      p.Execute = ⟨none, n, tr, List.replicate p.Outputs.length final⟩) ∧
    (∀ ws₁ w ws₂ err, p.Outputs = ws₁ ++ w :: ws₂ → (∀ x ∈ ws₁, x final = none) →
      w final = some err →
      p.Execute = ⟨some err, n, tr, List.replicate (ws₁.length + 1) final⟩) := by
  have hres : result.isEmpty = false := by
    cases result with
    | nil => exact absurd rfl hne
    | cons x xs => rfl
  constructor
  · intro hall
    have hw := writePhase_all_ok p.Outputs final hall
    simp only [Pipeline.Execute, hread, hres, hfil, hw]
    simp
  · intro ws₁ w ws₂ err hout hok herr
    have hw := writePhase_first_error ws₁ w ws₂ final err hok herr
    rw [← hout] at hw
    simp only [Pipeline.Execute, hread, hres, hfil, hw]
    simp

/-- C8: the filters are applied in declaration order, each called with the collection the
previous filter returned (the first with the read phase's collection); when no stage
errors or empties the collection, the last stage's result is the collection handed to the
write phase, and it is what every invoked writer receives. -/
theorem c8_execute_filter_chain (p : Pipeline) (n : Nat) (result : List Doc)
    (hread : readPhase p.Inputs [] = (n, Except.ok result)) (hne : result ≠ [])
    (hns : noStop p.Filters result = true) :
    p.Execute.filterInputs = chainTrace p.Filters result ∧
    p.Execute.writeInputs = (writePhase p.Outputs (chainResult p.Filters result)).1 ∧
    p.Execute.error = (writePhase p.Outputs (chainResult p.Filters result)).2 ∧
    ∀ c ∈ p.Execute.writeInputs, c = chainResult p.Filters result := by
  have hfp := filterPhase_of_noStop p.Filters result hns
  have hres : result.isEmpty = false := by
    cases result with
    | nil => exact absurd rfl hne
    | cons x xs => rfl
  have hexec : p.Execute
      = ⟨(writePhase p.Outputs (chainResult p.Filters result)).2, n,
         chainTrace p.Filters result,
         (writePhase p.Outputs (chainResult p.Filters result)).1⟩ := by
    simp only [Pipeline.Execute, hread, hres, hfp]
    simp
  rw [hexec]
  exact ⟨rfl, rfl, rfl, writePhase_inputs_eq p.Outputs (chainResult p.Filters result)⟩

/-- C9: the read phase invokes every input source in source order and concatenates their
results, in that order, into the single collection handed to the filter phase; when an
input's read errors, `Execute` returns that error and neither the remaining inputs (the
read-call count stops at the failing input) nor any filter or writer is invoked. -/
theorem c9_execute_read_phase (p : Pipeline) :
    ((∀ r ∈ p.Inputs, r.2 = none) →
      readPhase p.Inputs []
        = (p.Inputs.length, Except.ok (p.Inputs.map Prod.fst).flatten) ∧
      ((p.Inputs.map Prod.fst).flatten ≠ [] →
        p.Execute.filterInputs
          = (filterPhase p.Filters (p.Inputs.map Prod.fst).flatten).1)) ∧
    (∀ is₁ nodes e is₂, p.Inputs = is₁ ++ (nodes, some e) :: is₂ →
      (∀ r ∈ is₁, r.2 = none) →
      p.Execute = ⟨some e, is₁.length + 1, [], []⟩) := by
  constructor
  · intro hall
    have hr := readPhase_all_ok p.Inputs [] hall
    simp only [List.nil_append] at hr
    refine ⟨hr, ?_⟩
    intro hne
    have hres : (p.Inputs.map Prod.fst).flatten.isEmpty = false := by
      cases hflat : (p.Inputs.map Prod.fst).flatten with
      | nil => exact absurd hflat hne
      | cons x xs => rfl
    rcases hfp : filterPhase p.Filters (p.Inputs.map Prod.fst).flatten with ⟨tr, out⟩
    cases out with
    | stop e =>
      simp only [Pipeline.Execute, hr, hres, hfp]
      simp
    | ok final =>
      simp only [Pipeline.Execute, hr, hres, hfp]
      simp
  · intro is₁ nodes e is₂ hin hok
    have hr := readPhase_first_error is₁ nodes e is₂ [] hok
    rw [← hin] at hr
    simp only [Pipeline.Execute, hr]

/-- C10: a `ResourceNodeSlice` used as a `Reader` is the identity input source — its
`Read` returns exactly itself, in order, with a nil error. -/
theorem c10_resourceNodeSlice_read (o : ResourceNodeSlice) :
    ResourceNodeSlice.Read o = (o, none) := rfl

/-! ### Concrete pipelines for the witnesses -/

/-- A concrete deployment document. -/
def dA : Doc := ⟨"apps/v1", "Deployment", "deployment-foo", []⟩

/-- A concrete service document. -/
def dB : Doc := ⟨"v1", "Service", "service-foo", []⟩

/-- A stage appending `dB`, always succeeding. -/
def tfAppend : List Doc → List Doc × Option String := fun c => (c ++ [dB], none)

/-- A stage returning a non-empty collection together with an error. -/
def tfBoom : List Doc → List Doc × Option String := fun _ => ([dA], some "boom")

/-- A stage passing its collection through unchanged. -/
def tfId : List Doc → List Doc × Option String := fun c => (c, none)

/-- A sink that always succeeds. -/
def twOk : List Doc → Option String := fun _ => none

/-- A sink that always fails. -/
def twErr : List Doc → Option String := fun _ => some "werr"

/-- Pipeline whose second of three filters errors. -/
def p5 : Pipeline := ⟨[([dA], none)], [tfAppend, tfBoom, tfId], [twOk]⟩

/-- Pipeline with a single empty, error-free input. -/
def p6 : Pipeline := ⟨[([], none)], [tfId], [twErr]⟩

/-- Pipeline whose second of three writers errors. -/
def p7 : Pipeline := ⟨[([dA], none)], [tfAppend], [twOk, twErr, twOk]⟩

/-- Pipeline with two error-free inputs and two successful filters. -/
def p8 : Pipeline := ⟨[([dA], none), ([dB], none)], [tfAppend, tfId], [twOk]⟩

/-- Pipeline whose second input errors. -/
def p9 : Pipeline := ⟨[([dA], none), ([dB], some "readerr"), ([dA], none)], [tfId], [twOk]⟩

/-- C5 witness: in `p5` the second filter errors after the first appended `dB`; the run
returns `boom`, the third filter and the writer never run. -/
theorem c5_execute_filter_stop_witness :
    p5.Execute = ⟨some "boom", 1, [[dA], [dA, dB]], []⟩ :=
  c5_execute_filter_stop p5 1 [dA] [dA, dB] [dA] [tfAppend] [tfId] tfBoom [[dA]]
    (some "boom") rfl (by decide) rfl rfl rfl (Or.inr (by decide))

/-- C6 witness: `p6` reads one empty input and returns nil without invoking its filter or
its writer. -/
theorem c6_execute_empty_input_witness : p6.Execute = ⟨none, 1, [], []⟩ :=
  c6_execute_empty_input p6 1 rfl

/-- C7 witness: in `p7` the second of three writers fails; the first write already
happened, the third never runs, and `werr` is returned. -/
theorem c7_execute_write_phase_witness :
    p7.Execute = ⟨some "werr", 1, [[dA]], [[dA, dB], [dA, dB]]⟩ :=
  (c7_execute_write_phase p7 1 [dA] [dA, dB] [[dA]] rfl (by decide) rfl).2
    [twOk] twErr [twOk] "werr" rfl (by decide) rfl

/-- C8 witness: in `p8` the two filters thread the concatenated input in order and the
writer receives the last filter's result. -/
theorem c8_execute_filter_chain_witness :
    p8.Execute.filterInputs = [[dA, dB], [dA, dB, dB]] ∧
    p8.Execute.writeInputs = [[dA, dB, dB]] ∧
    p8.Execute.error = none := by
  have h := c8_execute_filter_chain p8 2 [dA, dB] rfl (by decide) (by decide)
  exact ⟨h.1, h.2.1, h.2.2.1⟩

/-- C9 witness: `p8`'s inputs are concatenated in source order; `p9` stops at its failing
second input, returning `readerr` with no filter and no writer invoked. -/
theorem c9_execute_read_phase_witness :
    readPhase p8.Inputs [] = (2, Except.ok [dA, dB]) ∧
    p9.Execute = ⟨some "readerr", 2, [], []⟩ := by
  constructor
  · exact ((c9_execute_read_phase p8).1 (by decide)).1
  · exact (c9_execute_read_phase p9).2 [([dA], none)] [dB] "readerr" [([dA], none)]
      rfl (by decide)
